import Mathlib

/-!
Verification of the LINDASnext migration helper's RDF comparison core.

The repository compares two RDF datasets (a "Stardog" store and a "GraphDB"
store).  `src/src/pages/validator.py` is the main engine: it discovers entity
populations, intersects them, samples, fetches per-entity subgraphs, normalizes
literals, and compares canonicalized graphs.  `src/compare.py`,
`src/compare_app.py` and `src/src/app.py` are variants of the same pipeline.

The canonicalization (`rdflib.compare.to_isomorphic`), the diff
(`rdflib.compare.graph_diff`), Unicode NFC (`unicodedata.normalize`), the
N-Triples parser (`rdflib.Graph.parse`) and `random.sample` are library calls
whose code is not part of the repository; they are modelled here from the
design document (definitions marked `Modelled from the spec:`).  Everything
else is translated directly from the Python sources.
-/

/-- An RDF node: an IRI, a blank node carrying its fetch-local label, or a
literal with lexical form, optional language tag and optional datatype IRI. -/
inductive Node where
  | iri : String → Node
  | blank : String → Node
  | lit : String → Option String → Option String → Node
deriving DecidableEq, Repr

/-- Two strings with the same character data are equal. -/
theorem string_data_inj {s t : String} (h : s.data = t.data) : s = t := by
  cases s
  cases t
  exact congrArg String.mk h

/-- Injective encoding of an optional string, used to build a linear order
(strings are compared through their character lists, whose lexicographic
order is computable). -/
def encOpt : Option String → Nat ×ₗ List Char
  | none => toLex (0, [])
  | some s => toLex (1, s.data)

/-- Injective encoding of a node into nested lexicographic products, used to
obtain a linear order on nodes (needed for deterministic sorting and for the
minimum canonical candidate). -/
def encNode : Node → Nat ×ₗ (List Char ×ₗ ((Nat ×ₗ List Char) ×ₗ (Nat ×ₗ List Char)))
  | .iri s => toLex (0, toLex (s.data, toLex (encOpt none, encOpt none)))
  | .blank s => toLex (1, toLex (s.data, toLex (encOpt none, encOpt none)))
  | .lit s l d => toLex (2, toLex (s.data, toLex (encOpt l, encOpt d)))

theorem encOpt_injective : Function.Injective encOpt := by
  intro a b h
  cases a <;> cases b <;> simp [encOpt, toLex, Prod.mk.injEq] at h ⊢
  exact string_data_inj h

theorem encNode_injective : Function.Injective encNode := by
  intro a b h
  cases a <;> cases b <;>
    simp [encNode, toLex, Prod.mk.injEq] at h ⊢
  · exact string_data_inj h
  · exact string_data_inj h
  · exact ⟨string_data_inj h.1, encOpt_injective h.2.1, encOpt_injective h.2.2⟩

instance : LinearOrder Node := LinearOrder.lift' encNode encNode_injective

/-- An RDF triple (subject, predicate, object). -/
structure Triple where
  s : Node
  p : Node
  o : Node
deriving DecidableEq, Repr

/-- Injective encoding of a triple, used to obtain a linear order. -/
def encTriple (t : Triple) : Node ×ₗ (Node ×ₗ Node) := toLex (t.s, toLex (t.p, t.o))

theorem encTriple_injective : Function.Injective encTriple := by
  intro a b h
  cases a; cases b
  simpa [encTriple, toLex, Prod.mk.injEq, Triple.mk.injEq] using h

instance : LinearOrder Triple := LinearOrder.lift' encTriple encTriple_injective

/-- An rdflib `Graph`: a collection of triples with set semantics, embedded as
the list of its triples in insertion order. -/
abbrev Graph := List Triple

/-- rdflib `Graph.add`: adding a triple already present is a no-op
(set semantics). -/
def Graph.add (g : Graph) (t : Triple) : Graph :=
  if t ∈ g then g else g ++ [t]

/-- rdflib `Graph.remove`: removes the exact triple. -/
def Graph.remove (g : Graph) (t : Triple) : Graph :=
  g.filter (fun u => decide (u ≠ t))

/-- rdflib graph union (`g1 += g2` in `run_validation`'s aggregation step). -/
def Graph.union (g1 g2 : Graph) : Graph :=
  g2.foldl Graph.add g1

/-- Modelled from the spec: Unicode canonical composition for the NFC fragment
exercised here — U+0065 LATIN SMALL LETTER E followed by U+0301 COMBINING ACUTE
ACCENT composes to U+00E9 LATIN SMALL LETTER E WITH ACUTE (the spec's
"visually-identical characters using different Unicode decompositions"). -/
def composeChar (c1 c2 : Char) : Option Char :=
  if c1 = 'e' ∧ c2 = '́' then some 'é' else none

/-- Modelled from the spec: Unicode Normalization Form C on a character list —
canonical composition of base character + combining mark pairs. -/
def nfcChars : List Char → List Char
  | [] => []
  | [c] => [c]
  | c1 :: c2 :: rest =>
    match composeChar c1 c2 with
    | some c => c :: nfcChars rest
    | none => c1 :: nfcChars (c2 :: rest)

/-- Modelled from the spec: `unicodedata.normalize('NFC', s)`. -/
def nfc (s : String) : String := ⟨nfcChars s.data⟩

/-- The effect of `normalize_graph_literals` on a single triple: a literal
object's lexical form is NFC-normalized, its language tag and datatype are kept;
IRI and blank-node objects, subjects and predicates are untouched. -/
def normTriple : Triple → Triple
  | ⟨s, p, .lit lex lang dt⟩ => ⟨s, p, .lit (nfc lex) lang dt⟩
  | t => t

/-- The body of the `for s, p, o in graph:` loop of `normalize_graph_literals`:
`if isinstance(o, Literal): norm_val = unicodedata.normalize('NFC', str(o));
if str(o) != norm_val: graph.remove((s, p, o));
graph.add((s, p, Literal(norm_val, lang=o.language, datatype=o.datatype)))`. -/
def normStep (acc : Graph) (t : Triple) : Graph :=
  match t.o with
  | .lit lex lang dt =>
    if nfc lex ≠ lex then
      Graph.add (Graph.remove acc t) ⟨t.s, t.p, .lit (nfc lex) lang dt⟩
    else acc
  | _ => acc

/-- validator.py `normalize_graph_literals`: iterate over the graph's triples;
for every literal object whose lexical form is not NFC-normal, remove the old
triple and add the triple with the normalized literal (same language tag and
datatype). -/
def normalize_graph_literals (g : Graph) : Graph :=
  g.foldl normStep g

/-- Drop leading whitespace. -/
def skipWs (cs : List Char) : List Char := cs.dropWhile (fun c => c = ' ' ∨ c = '\t')

/-- Modelled from the spec: one term of an N-Triples line — an IRI `<...>`, a
blank node `_:label`, or a literal `"..."` with optional `@lang` or `^^<dt>`
suffix (escape sequences are not interpreted). Returns the node and the unread
rest. -/
def parseNode : List Char → Option (Node × List Char)
  | '<' :: rest =>
    let p := rest.span (fun c => decide (c ≠ '>'))
    match p.2 with
    | '>' :: rest2 => some (Node.iri ⟨p.1⟩, rest2)
    | _ => none
  | '_' :: ':' :: rest =>
    let p := rest.span (fun c => decide (c ≠ ' ' ∧ c ≠ '\t'))
    some (Node.blank ⟨p.1⟩, p.2)
  | '"' :: rest =>
    let p := rest.span (fun c => decide (c ≠ '"'))
    match p.2 with
    | '"' :: '@' :: rest2 =>
      let q := rest2.span (fun c => decide (c ≠ ' ' ∧ c ≠ '\t'))
      some (Node.lit ⟨p.1⟩ (some ⟨q.1⟩) none, q.2)
    | '"' :: '^' :: '^' :: '<' :: rest2 =>
      let q := rest2.span (fun c => decide (c ≠ '>'))
      match q.2 with
      | '>' :: rest3 => some (Node.lit ⟨p.1⟩ none (some ⟨q.1⟩), rest3)
      | _ => none
    | '"' :: rest2 => some (Node.lit ⟨p.1⟩ none none, rest2)
    | _ => none
  | _ => none

/-- Modelled from the spec: one N-Triples statement `subject predicate object .`. -/
def parseNTLine (line : String) : Option Triple :=
  match parseNode (skipWs line.data) with
  | none => none
  | some (s, r1) =>
    match parseNode (skipWs r1) with
    | none => none
    | some (p, r2) =>
      match parseNode (skipWs r2) with
      | none => none
      | some (o, r3) =>
        match skipWs r3 with
        | '.' :: r4 => if skipWs r4 = [] then some ⟨s, p, o⟩ else none
        | _ => none

/-- Split a character list at newline characters (the line structure of an
N-Triples response body). -/
def splitLines : List Char → List (List Char)
  | [] => [[]]
  | c :: rest =>
    if c = '\n' then [] :: splitLines rest
    else
      match splitLines rest with
      | [] => [[c]]
      | l :: ls => (c :: l) :: ls

/-- Modelled from the spec: `Graph.parse(data, format="nt")` — parse each line
as a statement and accumulate the triples into a graph with set semantics. -/
def parseNT (raw : String) : Graph :=
  (((splitLines raw.data).map (fun l => (⟨l⟩ : String))).filterMap parseNTLine).foldl
    Graph.add []

/-- compare_app.py `fetch_clean_graph` (and the fetchers of `src/src/app.py`),
client side: the whole decoded response body is NFC-normalized *before* parsing
(`normalized_text = unicodedata.normalize('NFC', response.content.decode('utf-8'))`,
then `g.parse(data=normalized_text, ...)`).  Transport is abstracted; the input
text of interest is in the N-Triples fragment of Turtle. -/
def fetch_clean_graph_text (raw : String) : Graph := parseNT (nfc raw)

/-- The IRI strings occurring in a node. -/
def nodeIRIString : Node → List String
  | .iri s => [s]
  | _ => []

/-- All IRI strings occurring in a graph, in subject, predicate or object
position. -/
def iriStrings (g : Graph) : List String :=
  (g.map (fun t => nodeIRIString t.s ++ nodeIRIString t.p ++ nodeIRIString t.o)).flatten

/-- The blank-node label of a node, if any. -/
def nodeBlankLabel : Node → List String
  | .blank b => [b]
  | _ => []

/-- Blank-node labels of a triple's components. -/
def tripleBlankLabels (t : Triple) : List String :=
  nodeBlankLabel t.s ++ nodeBlankLabel t.p ++ nodeBlankLabel t.o

/-- All blank-node labels of a graph, with multiplicity, in order. -/
def graphBlankList (g : Graph) : List String :=
  (g.map tripleBlankLabels).flatten

/-- The distinct blank-node labels of a graph, in order of first occurrence. -/
def blankLabels (g : Graph) : List String :=
  (graphBlankList g).dedup

/-- Rename the blank-node label of a node by `f`; IRIs and literals are kept. -/
def renameNode (f : String → String) : Node → Node
  | .blank b => .blank (f b)
  | n => n

/-- Rename all blank-node labels of a triple by `f`. -/
def renameTriple (f : String → String) (t : Triple) : Triple :=
  ⟨renameNode f t.s, renameNode f t.p, renameNode f t.o⟩

/-- Rename all blank-node labels of a graph by `f`. -/
def renameGraph (f : String → String) (g : Graph) : Graph :=
  g.map (renameTriple f)

/-- The canonical blank-node label for slot `n` (`c`, `cb`, `cbb`, …). -/
def canonLabel (n : Nat) : String := ⟨'c' :: List.replicate n 'b'⟩

/-- Association-list lookup with default slot 0. -/
def lookupD (m : List (String × Nat)) (b : String) : Nat :=
  (m.lookup b).getD 0

/-- The relabeling function induced by an assignment of labels to slots. -/
def assignFun (m : List (String × Nat)) : String → String :=
  fun b => canonLabel (lookupD m b)

/-- Relabel a graph's blank nodes according to a slot assignment. -/
def applyAssign (m : List (String × Nat)) (g : Graph) : Graph :=
  renameGraph (assignFun m) g

/-- Sort a graph's triples into the canonical (lexicographic) order. -/
def sortTriples (g : Graph) : Graph := List.insertionSort (· ≤ ·) g

/-- The canonical relabeling of `g` determined by pairing its blank labels with
the slot permutation `p`, with triples sorted. -/
def candidateOf (g : Graph) (p : List Nat) : Graph :=
  sortTriples (applyAssign ((blankLabels g).zip p) g)

/-- All insertions of `a` into a list, one per position. -/
def insertAll {α : Type} (a : α) : List α → List (List α)
  | [] => [[a]]
  | b :: l => (a :: b :: l) :: (insertAll a l).map (b :: ·)

/-- All permutations of a list (computable by structural recursion, so that
canonical forms of concrete graphs evaluate). -/
def permsOf {α : Type} : List α → List (List α)
  | [] => [[]]
  | a :: l => (permsOf l).flatMap (insertAll a)

/-- All canonical relabelings of `g`, one per permutation of the slots. -/
def candidates (g : Graph) : List Graph :=
  (permsOf (List.range (blankLabels g).length)).map (candidateOf g)

/-- The least element of a non-empty list of graphs (`[]` for the empty list). -/
def minGraph : List Graph → Graph
  | [] => []
  | c :: rest => rest.foldl min c

/-- Modelled from the spec: `rdflib.compare.to_isomorphic` — the Canonicalizer
(§4.2).  Every blank node is assigned a canonical identity that depends only on
its structural role, never on its fetch-local label; realized here as the
lexicographically least canonical relabeling of the graph, with ties between
symmetric structures broken deterministically by the minimum. -/
def to_isomorphic (g : Graph) : Graph := minGraph (candidates g)

/-- The comparison `to_isomorphic(g1) == to_isomorphic(g2)` used by every
comparison path of the repository (the `match` value of `run_validation`). -/
def graphsEqual (g1 g2 : Graph) : Bool :=
  decide (to_isomorphic g1 = to_isomorphic g2)

/-- Modelled from the spec: `rdflib.compare.graph_diff` — the Differ (§4.3).
Computed over canonical forms: a triple is shared iff an equal triple (under
canonical blank-node identity) exists in both inputs; returns
`(in_both, only_in_g1, only_in_g2)`. -/
def graph_diff (g1 g2 : Graph) : Graph × Graph × Graph :=
  ((to_isomorphic g1).filter (fun t => decide (t ∈ to_isomorphic g2)),
   (to_isomorphic g1).filter (fun t => decide (t ∉ to_isomorphic g2)),
   (to_isomorphic g2).filter (fun t => decide (t ∉ to_isomorphic g1)))

/-- One-by-one selection without replacement: at step `i` the random source
picks index `rand i % pop.length`; the chosen element is removed from the
population before the next draw. -/
def sampleGo {α : Type} [DecidableEq α] (rand : Nat → Nat) : Nat → Nat → List α → List α
  | _, 0, _ => []
  | _, _ + 1, [] => []
  | i, k + 1, y :: pop =>
    let x := (y :: pop).get ⟨rand i % (y :: pop).length, Nat.mod_lt _ (Nat.succ_pos _)⟩
    x :: sampleGo rand (i + 1) k ((y :: pop).erase x)

/-- Modelled from the spec: `random.sample(population, k)` — `k` elements chosen
uniformly at random without replacement; the random source is abstracted as
`rand`. -/
def randomSample {α : Type} [DecidableEq α] (rand : Nat → Nat) (pop : List α) (k : Nat) : List α :=
  sampleGo rand 0 k pop

/-- validator.py `run_validation`, Step 2 (`shared = st_items.intersection(gdb_items)`). -/
def populationShared (st gdb : List String) : List String :=
  st.filter (fun x => decide (x ∈ gdb))

/-- validator.py `run_validation`, Step 2 (`only_st = st_items - gdb_items`). -/
def populationOnlySt (st gdb : List String) : List String :=
  st.filter (fun x => decide (x ∉ gdb))

/-- validator.py `run_validation`, Step 2 (`only_gdb = gdb_items - st_items`). -/
def populationOnlyGdb (st gdb : List String) : List String :=
  gdb.filter (fun x => decide (x ∉ st))

/-- Code-point lexicographic order on strings: the order of Python's
`sorted(list(shared))` (compared through the character lists so that the
relation is computable). -/
def strLe (a b : String) : Prop := a.data ≤ b.data

instance : DecidableRel strLe := fun a b =>
  (inferInstance : Decidable (a.data ≤ b.data))

/-- validator.py `run_validation`, Step 3:
`items_to_check = sorted(list(shared))`, then
`if use_sampling and len(items_to_check) > sample_size:
items_to_check = random.sample(items_to_check, sample_size)`. -/
def itemsToCheck (shared : List String) (useSampling : Bool) (sampleSize : Nat)
    (rand : Nat → Nat) : List String :=
  if useSampling && decide ((List.insertionSort strLe shared).length > sampleSize) then
    randomSample rand (List.insertionSort strLe shared) sampleSize
  else List.insertionSort strLe shared

/-- One row of validator.py's report:
`{"IRI": iri, "Match": match, "Triples": len(g1)}`. -/
structure ComparisonResult where
  iri : String
  matched : Bool
  triples : Nat
deriving DecidableEq, Repr

/-- Outcome of one `run_validation` call.  `failed` is the run-level
`except Exception as e: st.error(...)` handler (no report is emitted);
`aborted` is the `if not shared: status.update(label="❌ No shared IRIs found.
Aborting deep-check."); return` path; `completed` carries the report rows and
the two aggregated sample graphs. -/
inductive RunOutcome where
  | failed : String → RunOutcome
  | aborted : RunOutcome
  | completed : List ComparisonResult → Graph → Graph → RunOutcome
deriving DecidableEq, Repr

/-- validator.py `run_validation`, Step 4: the per-entity deep-comparison loop.
For each IRI both subgraphs are fetched, aggregated
(`all_st_graph += g1; all_gdb_graph += g2`), compared
(`match = (to_isomorphic(g1) == to_isomorphic(g2))`), and one row
`{"IRI": iri, "Match": match, "Triples": len(g1)}` is appended.  The loop runs
inside the function-level `try:`, so a failing fetch aborts the whole loop. -/
def deepCompareLoop (fetchSt fetchGdb : String → Except String Graph) :
    List String → List ComparisonResult → Graph → Graph →
    Except String (List ComparisonResult × Graph × Graph)
  | [], acc, aSt, aGdb => .ok (acc, aSt, aGdb)
  | iri :: rest, acc, aSt, aGdb =>
    match fetchSt iri with
    | .error e => .error e
    | .ok g1 =>
      match fetchGdb iri with
      | .error e => .error e
      | .ok g2 =>
        deepCompareLoop fetchSt fetchGdb rest
          (acc ++ [⟨iri, graphsEqual g1 g2, g1.length⟩])
          (Graph.union aSt g1) (Graph.union aGdb g2)

/-- validator.py `run_validation`: discover both populations, compare them,
abort when the shared set is empty, sort and optionally sample the shared IRIs,
then run the deep-comparison loop and report.  The single `try/except` wrapping
all of these steps turns any error — from discovery or from any per-entity
fetch — into a failed run with no (even partial) report. -/
def run_validation (discoverSt discoverGdb : Except String (List String))
    (fetchSt fetchGdb : String → Except String Graph)
    (useSampling : Bool) (sampleSize : Nat) (rand : Nat → Nat) : RunOutcome :=
  match discoverSt with
  | .error e => .failed e
  | .ok stItems =>
    match discoverGdb with
    | .error e => .failed e
    | .ok gdbItems =>
      if (populationShared stItems gdbItems).isEmpty then .aborted
      else
        match deepCompareLoop fetchSt fetchGdb
            (itemsToCheck (populationShared stItems gdbItems) useSampling sampleSize rand)
            [] [] [] with
        | .error e => .failed e
        | .ok (results, aSt, aGdb) => .completed results aSt aGdb

/-- The relation between an input IRI and the report row the deep-comparison
loop records for it. -/
def rowSpec (fetchSt fetchGdb : String → Except String Graph)
    (iri : String) (r : ComparisonResult) : Prop :=
  ∃ g1 g2, fetchSt iri = .ok g1 ∧ fetchGdb iri = .ok g2 ∧
    r = ⟨iri, graphsEqual g1 g2, g1.length⟩

/-- Example graph: an entity with a nested anonymous structure (two blank
nodes). -/
def exGraph : Graph :=
  [⟨.iri "http://ex/s", .iri "http://ex/p", .blank "n1"⟩,
   ⟨.blank "n1", .iri "http://ex/q", .blank "n2"⟩,
   ⟨.blank "n2", .iri "http://ex/r", .lit "v" none none⟩]

/-- Example bijective blank-node relabeling: swap the two labels of `exGraph`. -/
def exSwap : String → String :=
  fun s => if s = "n1" then "n2" else if s = "n2" then "n1" else s

/-- Example triple used by the orchestrator witnesses. -/
def tripleB1 : Triple := ⟨.iri "http://ex/b", .iri "http://ex/p", .lit "1" none none⟩

/-- Second example triple, giving the GraphDB store a larger graph. -/
def tripleB2 : Triple := ⟨.iri "http://ex/b", .iri "http://ex/q", .lit "2" none none⟩

/-- Example fetcher answering every IRI with the one-triple graph. -/
def fetchOne : String → Except String Graph := fun _ => .ok [tripleB1]

/-- Example fetcher answering every IRI with a two-triple graph. -/
def fetchTwo : String → Except String Graph := fun _ => .ok [tripleB1, tripleB2]

/-- Example fetcher for which one entity's fetch raises a transport error. -/
def fetchBoom : String → Except String Graph :=
  fun iri => if iri = "http://ex/b" then .error "timeout" else .ok [tripleB1]

/-- Example N-Triples document whose subject IRI contains the decomposed
character sequence U+0065 U+0301 (rendered identically to U+00E9). -/
def c5Raw : String := "<http://ex/cafe\u0301> <http://ex/p> <http://ex/o> ."

theorem foldl_min_init_le {α : Type} [LinearOrder α] (rest : List α) (a : α) :
    rest.foldl min a ≤ a := by
  induction rest generalizing a with
  | nil => exact le_refl a
  | cons b r ih =>
    rw [List.foldl_cons]
    exact le_trans (ih (min a b)) (min_le_left a b)

theorem foldl_min_choice {α : Type} [LinearOrder α] (rest : List α) (a : α) :
    rest.foldl min a = a ∨ rest.foldl min a ∈ rest := by
  induction rest generalizing a with
  | nil => exact Or.inl rfl
  | cons b r ih =>
    rw [List.foldl_cons]
    rcases ih (min a b) with h | h
    · rcases min_choice a b with hm | hm
      · exact Or.inl (h.trans hm)
      · right
        rw [h, hm]
        exact List.mem_cons_self b r
    · exact Or.inr (List.mem_cons_of_mem b h)

theorem foldl_min_le {α : Type} [LinearOrder α] (rest : List α) (a x : α)
    (hx : x ∈ rest) : rest.foldl min a ≤ x := by
  induction rest generalizing a with
  | nil => cases hx
  | cons b r ih =>
    rw [List.foldl_cons]
    rcases List.mem_cons.mp hx with h | h
    · exact le_trans (foldl_min_init_le r (min a b)) (h ▸ min_le_right a b)
    · exact ih (min a b) h

theorem minGraph_mem {cs : List Graph} (h : cs ≠ []) : minGraph cs ∈ cs := by
  match cs with
  | [] => exact absurd rfl h
  | c :: rest =>
    show rest.foldl min c ∈ c :: rest
    rcases foldl_min_choice rest c with hc | hc
    · rw [hc]
      exact List.mem_cons_self c rest
    · exact List.mem_cons_of_mem c hc

theorem minGraph_le {cs : List Graph} {x : Graph} (hx : x ∈ cs) : minGraph cs ≤ x := by
  match cs with
  | [] => cases hx
  | c :: rest =>
    show rest.foldl min c ≤ x
    rcases List.mem_cons.mp hx with h | h
    · exact h ▸ foldl_min_init_le rest c
    · exact foldl_min_le rest c x h

theorem minGraph_congr {cs ds : List Graph} (hcs : cs ≠ []) (hds : ds ≠ [])
    (hiff : ∀ x, x ∈ cs ↔ x ∈ ds) : minGraph cs = minGraph ds :=
  le_antisymm
    (minGraph_le ((hiff (minGraph ds)).mpr (minGraph_mem hds)))
    (minGraph_le ((hiff (minGraph cs)).mp (minGraph_mem hcs)))

theorem sortTriples_sorted (g : Graph) : List.Sorted (· ≤ ·) (sortTriples g) :=
  List.sorted_insertionSort _ g

theorem sortTriples_perm (g : Graph) : (sortTriples g).Perm g :=
  List.perm_insertionSort _ g

theorem sortTriples_eq_of_perm {g h : Graph} (hp : g.Perm h) :
    sortTriples g = sortTriples h :=
  List.eq_of_perm_of_sorted ((sortTriples_perm g).trans (hp.trans (sortTriples_perm h).symm))
    (sortTriples_sorted g) (sortTriples_sorted h)

theorem nodeBlankLabel_rename (f : String → String) (n : Node) :
    nodeBlankLabel (renameNode f n) = (nodeBlankLabel n).map f := by
  cases n <;> simp [nodeBlankLabel, renameNode]

theorem tripleBlankLabels_rename (f : String → String) (t : Triple) :
    tripleBlankLabels (renameTriple f t) = (tripleBlankLabels t).map f := by
  simp [tripleBlankLabels, renameTriple, nodeBlankLabel_rename]

theorem graphBlankList_rename (f : String → String) (g : Graph) :
    graphBlankList (renameGraph f g) = (graphBlankList g).map f := by
  unfold graphBlankList renameGraph
  rw [List.map_map, List.map_flatten, List.map_map]
  congr 1
  exact List.map_congr_left (fun t _ => tripleBlankLabels_rename f t)

theorem dedup_map_injOn {α β : Type} [DecidableEq α] [DecidableEq β] (f : α → β) :
    ∀ l : List α, (∀ a ∈ l, ∀ b ∈ l, f a = f b → a = b) →
      (l.map f).dedup = l.dedup.map f
  | [], _ => rfl
  | a :: l, hinj => by
    have hrest : ∀ x ∈ l, ∀ y ∈ l, f x = f y → x = y := fun x hx y hy =>
      hinj x (List.mem_cons_of_mem a hx) y (List.mem_cons_of_mem a hy)
    by_cases h : a ∈ l
    · rw [List.map_cons, List.dedup_cons_of_mem (List.mem_map_of_mem f h),
        List.dedup_cons_of_mem h]
      exact dedup_map_injOn f l hrest
    · have hf : f a ∉ l.map f := by
        intro hm
        rcases List.mem_map.mp hm with ⟨b, hb, hfb⟩
        exact h (hinj b (List.mem_cons_of_mem a hb) a (List.mem_cons_self a l) hfb ▸ hb)
      rw [List.map_cons, List.dedup_cons_of_not_mem hf, List.dedup_cons_of_not_mem h,
        List.map_cons]
      exact congrArg (f a :: ·) (dedup_map_injOn f l hrest)

theorem blankLabels_rename (f : String → String) (g : Graph)
    (hinj : ∀ a ∈ blankLabels g, ∀ b ∈ blankLabels g, f a = f b → a = b) :
    blankLabels (renameGraph f g) = (blankLabels g).map f := by
  unfold blankLabels
  rw [graphBlankList_rename]
  exact dedup_map_injOn f _ (fun a ha b hb =>
    hinj a (List.mem_dedup.mpr ha) b (List.mem_dedup.mpr hb))

theorem lookup_zip_map_rename {f : String → String} :
    ∀ (bl : List String) (p : List Nat) (b : String), b ∈ bl →
      (∀ x ∈ bl, f x = f b → x = b) →
      List.lookup (f b) ((bl.map f).zip p) = List.lookup b (bl.zip p)
  | [], _, _, hb, _ => absurd hb (List.not_mem_nil _)
  | x :: bl, [], b, _, _ => by simp [List.zip_nil_right]
  | x :: bl, n :: p, b, hb, hinj => by
    by_cases hbx : b = x
    · subst hbx
      simp [List.zip_cons_cons, List.lookup]
    · have hfx : f b ≠ f x := fun hc => hbx ((hinj x (List.mem_cons_self x bl) hc.symm).symm)
      rw [List.map_cons, List.zip_cons_cons, List.zip_cons_cons, List.lookup, List.lookup]
      simp only [beq_eq_false_iff_ne.mpr hfx, beq_eq_false_iff_ne.mpr hbx]
      exact lookup_zip_map_rename bl p b (List.mem_of_ne_of_mem hbx hb)
        (fun y hy => hinj y (List.mem_cons_of_mem x hy))

theorem tripleBlankLabels_subset {g : Graph} {t : Triple} (ht : t ∈ g) :
    ∀ b ∈ tripleBlankLabels t, b ∈ blankLabels g := fun _ hb =>
  List.mem_dedup.mpr (List.mem_flatten.mpr
    ⟨tripleBlankLabels t, List.mem_map_of_mem _ ht, hb⟩)

theorem renameNode_assign_rename {f : String → String} {g : Graph} (p : List Nat) (n : Node)
    (hmem : ∀ b ∈ nodeBlankLabel n, b ∈ blankLabels g)
    (hinj : ∀ a ∈ blankLabels g, ∀ b ∈ blankLabels g, f a = f b → a = b) :
    renameNode (assignFun (((blankLabels g).map f).zip p)) (renameNode f n)
      = renameNode (assignFun ((blankLabels g).zip p)) n := by
  cases n with
  | blank b =>
    have hb : b ∈ blankLabels g := hmem b (by simp [nodeBlankLabel])
    show Node.blank (assignFun _ (f b)) = Node.blank (assignFun _ b)
    unfold assignFun lookupD
    rw [lookup_zip_map_rename (blankLabels g) p b hb (fun x hx => hinj x hx b hb)]
  | iri s => rfl
  | lit s l d => rfl

theorem applyAssign_rename {f : String → String} {g : Graph} (p : List Nat)
    (hinj : ∀ a ∈ blankLabels g, ∀ b ∈ blankLabels g, f a = f b → a = b) :
    applyAssign (((blankLabels g).map f).zip p) (renameGraph f g)
      = applyAssign ((blankLabels g).zip p) g := by
  unfold applyAssign renameGraph
  rw [List.map_map]
  apply List.map_congr_left
  intro t ht
  have hsub := tripleBlankLabels_subset ht
  have hs : ∀ b ∈ nodeBlankLabel t.s, b ∈ blankLabels g := fun b hb =>
    hsub b (List.mem_append.mpr (Or.inl (List.mem_append.mpr (Or.inl hb))))
  have hp : ∀ b ∈ nodeBlankLabel t.p, b ∈ blankLabels g := fun b hb =>
    hsub b (List.mem_append.mpr (Or.inl (List.mem_append.mpr (Or.inr hb))))
  have ho : ∀ b ∈ nodeBlankLabel t.o, b ∈ blankLabels g := fun b hb =>
    hsub b (List.mem_append.mpr (Or.inr hb))
  show renameTriple _ (renameTriple f t) = renameTriple _ t
  unfold renameTriple
  rw [renameNode_assign_rename p t.s hs hinj, renameNode_assign_rename p t.p hp hinj,
    renameNode_assign_rename p t.o ho hinj]

theorem candidates_rename {f : String → String} {g : Graph}
    (hinj : ∀ a ∈ blankLabels g, ∀ b ∈ blankLabels g, f a = f b → a = b) :
    candidates (renameGraph f g) = candidates g := by
  unfold candidates
  rw [blankLabels_rename f g hinj, List.length_map]
  apply List.map_congr_left
  intro p _
  unfold candidateOf
  rw [blankLabels_rename f g hinj, applyAssign_rename p hinj]

theorem to_isomorphic_rename {f : String → String} {g : Graph}
    (hinj : ∀ a ∈ blankLabels g, ∀ b ∈ blankLabels g, f a = f b → a = b) :
    to_isomorphic (renameGraph f g) = to_isomorphic g := by
  unfold to_isomorphic
  rw [candidates_rename hinj]

theorem mem_insertAll {α : Type} {a : α} :
    ∀ {p x : List α}, x ∈ insertAll a p ↔ ∃ l1 l2, p = l1 ++ l2 ∧ x = l1 ++ a :: l2 := by
  intro p
  induction p with
  | nil =>
    intro x
    rw [insertAll]
    constructor
    · intro hx
      exact ⟨[], [], rfl, by simpa using hx⟩
    · rintro ⟨l1, l2, hp, rfl⟩
      obtain ⟨h1, h2⟩ := List.append_eq_nil.mp hp.symm
      subst h1
      subst h2
      exact List.mem_singleton.mpr rfl
  | cons b l ih =>
    intro x
    constructor
    · intro hx
      rw [insertAll] at hx
      rcases List.mem_cons.mp hx with hx | hx
      · exact ⟨[], b :: l, rfl, by simpa using hx⟩
      · rcases List.mem_map.mp hx with ⟨y, hy, rfl⟩
        rcases ih.mp hy with ⟨l1, l2, rfl, rfl⟩
        exact ⟨b :: l1, l2, rfl, rfl⟩
    · rintro ⟨l1, l2, hp, rfl⟩
      rw [insertAll]
      cases l1 with
      | nil =>
        simp only [List.nil_append] at hp
        subst hp
        exact List.mem_cons_self _ _
      | cons c l1 =>
        rw [List.cons_append] at hp
        injection hp with hb hp
        subst hb
        refine List.mem_cons_of_mem _ (List.mem_map.mpr ⟨l1 ++ a :: l2, ?_, rfl⟩)
        exact ih.mpr ⟨l1, l2, hp, rfl⟩

theorem mem_permsOf {α : Type} : ∀ {l x : List α}, x ∈ permsOf l ↔ x.Perm l := by
  intro l
  induction l with
  | nil =>
    intro x
    rw [permsOf]
    simp [List.perm_nil]
  | cons a l ih =>
    intro x
    rw [permsOf]
    rw [List.mem_flatMap]
    constructor
    · rintro ⟨p, hp, hx⟩
      rcases mem_insertAll.mp hx with ⟨l1, l2, rfl, rfl⟩
      exact List.perm_middle.trans ((ih.mp hp).cons a)
    · intro hx
      have ha : a ∈ x := hx.symm.subset (List.mem_cons_self a l)
      rcases List.append_of_mem ha with ⟨l1, l2, rfl⟩
      have hrest : (l1 ++ l2).Perm l :=
        (List.perm_middle.symm.trans hx).cons_inv
      exact ⟨l1 ++ l2, ih.mpr hrest, mem_insertAll.mpr ⟨l1, l2, rfl, rfl⟩⟩

theorem graphBlankList_perm {g h : Graph} (hp : g.Perm h) :
    (graphBlankList g).Perm (graphBlankList h) :=
  (hp.map tripleBlankLabels).flatten

theorem blankLabels_perm {g h : Graph} (hp : g.Perm h) :
    (blankLabels g).Perm (blankLabels h) :=
  (graphBlankList_perm hp).dedup

theorem canonLabel_injective : Function.Injective canonLabel := by
  intro a b h
  have hd := congrArg String.data h
  simp only [canonLabel] at hd
  have := congrArg List.length hd
  simpa using this

theorem lookup_zip_self (G : String → Nat) :
    ∀ (bl : List String) (b : String), b ∈ bl →
      List.lookup b (bl.zip (bl.map G)) = some (G b)
  | [], b, hb => absurd hb (List.not_mem_nil b)
  | x :: bl, b, hb => by
    by_cases hbx : b = x
    · subst hbx
      simp [List.zip_cons_cons, List.lookup]
    · rw [List.map_cons, List.zip_cons_cons, List.lookup]
      simp only [beq_eq_false_iff_ne.mpr hbx]
      exact lookup_zip_self G bl b (List.mem_of_ne_of_mem hbx hb)

theorem lookup_cons_ne {b x : String} (hbx : b ≠ x) (n : Nat) (m : List (String × Nat)) :
    List.lookup b ((x, n) :: m) = List.lookup b m := by
  rw [List.lookup]
  simp only [beq_eq_false_iff_ne.mpr hbx]

theorem map_lookupD_zip :
    ∀ (bl : List String) (p : List Nat), bl.Nodup → p.length = bl.length →
      bl.map (lookupD (bl.zip p)) = p
  | [], [], _, _ => rfl
  | [], n :: p, _, hlen => by simp at hlen
  | x :: bl, [], _, hlen => by simp at hlen
  | x :: bl, n :: p, hnd, hlen => by
    rw [List.zip_cons_cons, List.map_cons]
    have hx : lookupD ((x, n) :: bl.zip p) x = n := by
      unfold lookupD
      simp [List.lookup]
    rw [hx]
    have hxbl : x ∉ bl := (List.nodup_cons.mp hnd).1
    have htail : ∀ b ∈ bl, lookupD ((x, n) :: bl.zip p) b = lookupD (bl.zip p) b := by
      intro b hb
      unfold lookupD
      rw [lookup_cons_ne (fun hc => hxbl (by rwa [hc] at hb)) n (bl.zip p)]
    rw [List.map_congr_left htail,
      map_lookupD_zip bl p (List.nodup_cons.mp hnd).2 (Nat.succ_injective hlen)]

theorem lookup_zip_mem :
    ∀ (bl : List String) (p : List Nat) (b : String), b ∈ bl → bl.length ≤ p.length →
      ∃ v, List.lookup b (bl.zip p) = some v ∧ v ∈ p
  | [], _, b, hb, _ => absurd hb (List.not_mem_nil b)
  | x :: bl, [], _, _, hlen => by simp at hlen
  | x :: bl, n :: p, b, hb, hlen => by
    by_cases hbx : b = x
    · subst hbx
      refine ⟨n, ?_, List.mem_cons_self n p⟩
      simp [List.zip_cons_cons, List.lookup]
    · rw [List.zip_cons_cons, lookup_cons_ne hbx n (bl.zip p)]
      rcases lookup_zip_mem bl p b (List.mem_of_ne_of_mem hbx hb)
          (Nat.le_of_succ_le_succ hlen) with ⟨v, hv, hvp⟩
      exact ⟨v, hv, List.mem_cons_of_mem n hvp⟩

theorem lookupD_zip_injOn {bl : List String} {p : List Nat}
    (hbl : bl.Nodup) (hp : p.Nodup) (hlen : bl.length ≤ p.length) :
    ∀ a ∈ bl, ∀ b ∈ bl, lookupD (bl.zip p) a = lookupD (bl.zip p) b → a = b := by
  induction bl generalizing p with
  | nil => intro a ha; cases ha
  | cons x bl ih =>
    match p with
    | [] => simp at hlen
    | n :: p =>
      intro a ha b hb heq
      have hxbl : x ∉ bl := (List.nodup_cons.mp hbl).1
      have hlook : ∀ c ∈ bl, ∃ v, List.lookup c (bl.zip p) = some v ∧ v ∈ p := fun c hc =>
        lookup_zip_mem bl p c hc (Nat.le_of_succ_le_succ hlen)
      rcases List.mem_cons.mp ha with hax | hax <;> rcases List.mem_cons.mp hb with hbx | hbx
      · exact hax.trans hbx.symm
      · exfalso
        rcases hlook b hbx with ⟨v, hv, hvp⟩
        have hbne : b ≠ x := fun hc => hxbl (hc ▸ hbx)
        rw [List.zip_cons_cons] at heq
        unfold lookupD at heq
        rw [hax, lookup_cons_ne hbne n (bl.zip p), hv] at heq
        simp only [List.lookup] at heq
        simp at heq
        exact (List.nodup_cons.mp hp).1 (heq ▸ hvp)
      · exfalso
        rcases hlook a hax with ⟨v, hv, hvp⟩
        have hane : a ≠ x := fun hc => hxbl (hc ▸ hax)
        rw [List.zip_cons_cons] at heq
        unfold lookupD at heq
        rw [hbx, lookup_cons_ne hane n (bl.zip p), hv] at heq
        simp only [List.lookup] at heq
        simp at heq
        exact (List.nodup_cons.mp hp).1 (heq ▸ hvp)
      · have hane : a ≠ x := fun hc => hxbl (hc ▸ hax)
        have hbne : b ≠ x := fun hc => hxbl (hc ▸ hbx)
        rw [List.zip_cons_cons] at heq
        unfold lookupD at heq
        rw [lookup_cons_ne hane n (bl.zip p), lookup_cons_ne hbne n (bl.zip p)] at heq
        exact ih (List.nodup_cons.mp hbl).2 (List.nodup_cons.mp hp).2
          (Nat.le_of_succ_le_succ hlen) a hax b hbx heq

theorem renameNode_congr {f1 f2 : String → String} (n : Node)
    (h : ∀ b ∈ nodeBlankLabel n, f1 b = f2 b) :
    renameNode f1 n = renameNode f2 n := by
  cases n with
  | blank b =>
    show Node.blank (f1 b) = Node.blank (f2 b)
    rw [h b (by simp [nodeBlankLabel])]
  | iri s => rfl
  | lit s l d => rfl

theorem subjBlank_mem {t : Triple} : ∀ b ∈ nodeBlankLabel t.s, b ∈ tripleBlankLabels t :=
  fun _ hb => List.mem_append.mpr (Or.inl (List.mem_append.mpr (Or.inl hb)))

theorem predBlank_mem {t : Triple} : ∀ b ∈ nodeBlankLabel t.p, b ∈ tripleBlankLabels t :=
  fun _ hb => List.mem_append.mpr (Or.inl (List.mem_append.mpr (Or.inr hb)))

theorem objBlank_mem {t : Triple} : ∀ b ∈ nodeBlankLabel t.o, b ∈ tripleBlankLabels t :=
  fun _ hb => List.mem_append.mpr (Or.inr hb)

theorem applyAssign_congr {m1 m2 : List (String × Nat)} {g : Graph}
    (h : ∀ b ∈ blankLabels g, assignFun m1 b = assignFun m2 b) :
    applyAssign m1 g = applyAssign m2 g := by
  unfold applyAssign renameGraph
  apply List.map_congr_left
  intro t ht
  have hsub := tripleBlankLabels_subset ht
  unfold renameTriple
  rw [renameNode_congr t.s (fun b hb => h b (hsub b (subjBlank_mem b hb))),
    renameNode_congr t.p (fun b hb => h b (hsub b (predBlank_mem b hb))),
    renameNode_congr t.o (fun b hb => h b (hsub b (objBlank_mem b hb)))]

theorem candidateOf_mem_of_perm {g h : Graph} (hp : g.Perm h) {p : List Nat}
    (hpmem : p ∈ permsOf (List.range (blankLabels g).length)) :
    candidateOf g p ∈ candidates h := by
  have hperm : p.Perm (List.range (blankLabels g).length) := mem_permsOf.mp hpmem
  have hplen : p.length = (blankLabels g).length :=
    hperm.length_eq.trans (List.length_range _)
  have hbl2 : (blankLabels h).Perm (blankLabels g) := blankLabels_perm hp.symm
  have hlen2 : (blankLabels h).length = (blankLabels g).length := hbl2.length_eq
  set G := lookupD ((blankLabels g).zip p) with hG
  set p2 := (blankLabels h).map G with hp2
  have hp2mem : p2 ∈ permsOf (List.range (blankLabels h).length) := by
    apply mem_permsOf.mpr
    have h1 : p2.Perm ((blankLabels g).map G) := hbl2.map G
    have h2 : (blankLabels g).map G = p :=
      map_lookupD_zip (blankLabels g) p (List.nodup_dedup _) hplen
    rw [hlen2]
    exact (h2 ▸ h1).trans hperm
  have hcand : candidateOf h p2 = candidateOf g p := by
    unfold candidateOf
    have hstep1 : applyAssign ((blankLabels h).zip p2) h
        = applyAssign ((blankLabels g).zip p) h := by
      apply applyAssign_congr
      intro b hb
      unfold assignFun lookupD
      rw [hp2, hG, lookup_zip_self _ (blankLabels h) b hb]
      rfl
    rw [hstep1]
    have hmap : (applyAssign ((blankLabels g).zip p) h).Perm
        (applyAssign ((blankLabels g).zip p) g) := by
      unfold applyAssign renameGraph
      exact hp.symm.map _
    exact sortTriples_eq_of_perm hmap
  exact hcand ▸ List.mem_map_of_mem (candidateOf h) hp2mem

theorem candidates_ne_nil (g : Graph) : candidates g ≠ [] := by
  unfold candidates
  have hmem : List.range (blankLabels g).length
      ∈ permsOf (List.range (blankLabels g).length) :=
    mem_permsOf.mpr (List.Perm.refl _)
  exact List.ne_nil_of_mem (List.mem_map_of_mem _ hmem)

theorem to_isomorphic_perm {g h : Graph} (hp : g.Perm h) :
    to_isomorphic g = to_isomorphic h := by
  unfold to_isomorphic
  apply minGraph_congr (candidates_ne_nil g) (candidates_ne_nil h)
  intro x
  constructor
  · intro hx
    rcases List.mem_map.mp hx with ⟨p, hpm, hcand⟩
    exact hcand ▸ candidateOf_mem_of_perm hp hpm
  · intro hx
    rcases List.mem_map.mp hx with ⟨p, hpm, hcand⟩
    exact hcand ▸ candidateOf_mem_of_perm hp.symm hpm

theorem to_isomorphic_idem (g : Graph) :
    to_isomorphic (to_isomorphic g) = to_isomorphic g := by
  have hmem : to_isomorphic g ∈ candidates g := minGraph_mem (candidates_ne_nil g)
  rcases List.mem_map.mp hmem with ⟨p, hpm, hcand⟩
  have hperm : p.Perm (List.range (blankLabels g).length) := mem_permsOf.mp hpm
  have hplen : p.length = (blankLabels g).length :=
    hperm.length_eq.trans (List.length_range _)
  have hpnd : p.Nodup := hperm.symm.nodup (List.nodup_range _)
  set m := (blankLabels g).zip p with hm
  have hinj : ∀ a ∈ blankLabels g, ∀ b ∈ blankLabels g,
      assignFun m a = assignFun m b → a = b := by
    intro a ha b hb heq
    have hlook : lookupD m a = lookupD m b := canonLabel_injective heq
    exact lookupD_zip_injOn (List.nodup_dedup _) hpnd (le_of_eq hplen.symm) a ha b hb hlook
  have hsorted : to_isomorphic (to_isomorphic g)
      = to_isomorphic (applyAssign m g) := by
    rw [← hcand]
    unfold candidateOf
    exact to_isomorphic_perm (sortTriples_perm _)
  have hren : to_isomorphic (applyAssign m g) = to_isomorphic g := by
    unfold applyAssign
    exact to_isomorphic_rename hinj
  exact hsorted.trans hren

theorem composeChar_some {c1 c2 c : Char} (h : composeChar c1 c2 = some c) :
    c = 'é' ∧ c1 = 'e' := by
  unfold composeChar at h
  split_ifs at h with h1
  injection h with h
  exact ⟨h.symm, h1.1⟩

theorem composeChar_eacute_none (x : Char) : composeChar 'é' x = none := by
  unfold composeChar
  have : ('é' : Char) ≠ 'e' := by decide
  simp [this]

theorem nfcChars_head (c : Char) (rest : List Char) :
    ∃ d t, nfcChars (c :: rest) = d :: t ∧ (d = c ∨ d = 'é') := by
  cases rest with
  | nil => exact ⟨c, [], rfl, Or.inl rfl⟩
  | cons c2 r =>
    cases hc : composeChar c c2 with
    | some d =>
      refine ⟨d, nfcChars r, ?_, Or.inr (composeChar_some hc).1⟩
      rw [nfcChars, hc]
    | none =>
      refine ⟨c, nfcChars (c2 :: r), ?_, Or.inl rfl⟩
      rw [nfcChars, hc]

theorem nfcChars_idem : ∀ l : List Char, nfcChars (nfcChars l) = nfcChars l
  | [] => rfl
  | [c] => rfl
  | c1 :: c2 :: rest => by
    cases hc : composeChar c1 c2 with
    | some c =>
      rw [nfcChars, hc]
      cases hr : nfcChars rest with
      | nil => rfl
      | cons d t =>
        have hcc : composeChar c d = none := by
          rw [(composeChar_some hc).1]
          exact composeChar_eacute_none d
        rw [nfcChars, hcc, ← hr, nfcChars_idem rest]
    | none =>
      rw [nfcChars, hc]
      rcases nfcChars_head c2 rest with ⟨d, t, hdt, hd⟩
      rw [hdt]
      have hcc : composeChar c1 d = none := by
        rcases hd with hd | hd
        · rw [hd]
          exact hc
        · rw [hd]
          unfold composeChar
          have : ('é' : Char) ≠ '́' := by decide
          simp [this]
      rw [nfcChars, hcc, ← hdt, nfcChars_idem (c2 :: rest)]

theorem nfc_idem (s : String) : nfc (nfc s) = nfc s := by
  show (⟨nfcChars (nfcChars s.data)⟩ : String) = ⟨nfcChars s.data⟩
  rw [nfcChars_idem]

/-- Whether `normalize_graph_literals` rewrites this triple: a literal object
with a non-NFC lexical form. -/
def tripleChanged (t : Triple) : Bool :=
  match t.o with
  | .lit lex _ _ => decide (nfc lex ≠ lex)
  | _ => false

theorem normTriple_eq_of_unchanged {t : Triple} (h : tripleChanged t = false) :
    normTriple t = t := by
  obtain ⟨s, p, o⟩ := t
  cases o with
  | lit lex lang dt =>
    have hlex : nfc lex = lex := by simpa [tripleChanged] using h
    show Triple.mk s p (Node.lit (nfc lex) lang dt) = Triple.mk s p (Node.lit lex lang dt)
    rw [hlex]
  | iri v => rfl
  | blank v => rfl

theorem normTriple_not_changed (t : Triple) : tripleChanged (normTriple t) = false := by
  obtain ⟨s, p, o⟩ := t
  cases o with
  | lit lex lang dt =>
    show tripleChanged (Triple.mk s p (Node.lit (nfc lex) lang dt)) = false
    simp [tripleChanged, nfc_idem]
  | iri v => rfl
  | blank v => rfl

theorem normStep_eq (acc : Graph) (t : Triple) :
    normStep acc t =
      if tripleChanged t = true then Graph.add (Graph.remove acc t) (normTriple t)
      else acc := by
  obtain ⟨s, p, o⟩ := t
  cases o with
  | lit lex lang dt =>
    show (if nfc lex ≠ lex then _ else acc) = _
    by_cases h : nfc lex ≠ lex
    · simp only [if_pos h, tripleChanged, decide_eq_true_eq, h, if_pos]
      rfl
    · simp only [if_neg h, tripleChanged]
      simp [h]
  | iri v => simp [normStep, tripleChanged]
  | blank v => simp [normStep, tripleChanged]

theorem mem_add (g : Graph) (t x : Triple) : x ∈ Graph.add g t ↔ x ∈ g ∨ x = t := by
  unfold Graph.add
  split_ifs with h
  · constructor
    · exact Or.inl
    · rintro (hx | rfl)
      · exact hx
      · exact h
  · simp [List.mem_append]

theorem mem_remove (g : Graph) (t x : Triple) : x ∈ Graph.remove g t ↔ x ∈ g ∧ x ≠ t := by
  unfold Graph.remove
  simp [List.mem_filter]

theorem foldl_normStep_mem (x : Triple) :
    ∀ (rest : List Triple) (acc : Graph),
      x ∈ rest.foldl normStep acc ↔
        (x ∈ acc ∧ ¬∃ t ∈ rest, tripleChanged t = true ∧ x = t)
        ∨ ∃ t ∈ rest, tripleChanged t = true ∧ x = normTriple t
  | [], acc => by simp
  | t0 :: rest, acc => by
    rw [List.foldl_cons, foldl_normStep_mem x rest (normStep acc t0),
      List.exists_mem_cons_iff, List.exists_mem_cons_iff]
    by_cases hch : tripleChanged t0 = true
    · have hmem : x ∈ normStep acc t0 ↔ (x ∈ acc ∧ x ≠ t0) ∨ x = normTriple t0 := by
        rw [normStep_eq, if_pos hch, mem_add, mem_remove]
      rw [hmem]
      have hkey : x = normTriple t0 → ¬∃ t ∈ rest, tripleChanged t = true ∧ x = t := by
        rintro rfl ⟨t, _, hct, rfl⟩
        rw [normTriple_not_changed t0] at hct
        cases hct
      constructor
      · rintro (⟨⟨hA, hT⟩ | hM, hR⟩ | hE)
        · exact Or.inl ⟨hA, fun hc => hc.elim (fun hp => hT hp.2) hR⟩
        · exact Or.inr (Or.inl ⟨hch, hM⟩)
        · exact Or.inr (Or.inr hE)
      · rintro (⟨hA, hPR⟩ | (⟨_, hM⟩ | hE))
        · exact Or.inl ⟨Or.inl ⟨hA, fun hT => hPR (Or.inl ⟨hch, hT⟩)⟩,
            fun hR => hPR (Or.inr hR)⟩
        · exact Or.inl ⟨Or.inr hM, hkey hM⟩
        · exact Or.inr hE
    · have hch' : tripleChanged t0 = false := by
        cases h : tripleChanged t0
        · rfl
        · exact absurd h hch
      have hmem : normStep acc t0 = acc := by rw [normStep_eq, if_neg hch]
      rw [hmem]
      constructor
      · rintro (⟨hA, hR⟩ | hE)
        · refine Or.inl ⟨hA, fun hc => hc.elim (fun hp => ?_) hR⟩
          rw [hch'] at hp
          cases hp.1
        · exact Or.inr (Or.inr hE)
      · rintro (⟨hA, hPR⟩ | (⟨hc, _⟩ | hE))
        · exact Or.inl ⟨hA, fun hR => hPR (Or.inr hR)⟩
        · rw [hch'] at hc
          cases hc
        · exact Or.inr hE

theorem mem_normalize_graph_literals (g : Graph) (x : Triple) :
    x ∈ normalize_graph_literals g ↔ ∃ u ∈ g, x = normTriple u := by
  unfold normalize_graph_literals
  rw [foldl_normStep_mem x g g]
  constructor
  · rintro (⟨hx, hno⟩ | ⟨t, ht, _, rfl⟩)
    · refine ⟨x, hx, ?_⟩
      have hxc : tripleChanged x = false := by
        cases h : tripleChanged x
        · rfl
        · exact absurd ⟨x, hx, h, rfl⟩ hno
      exact (normTriple_eq_of_unchanged hxc).symm
    · exact ⟨t, ht, rfl⟩
  · rintro ⟨u, hu, rfl⟩
    cases h : tripleChanged u
    · rw [normTriple_eq_of_unchanged h]
      refine Or.inl ⟨hu, ?_⟩
      rintro ⟨t, _, hct, rfl⟩
      rw [h] at hct
      cases hct
    · exact Or.inr ⟨u, hu, h, rfl⟩

theorem add_nodup {g : Graph} (t : Triple) (h : g.Nodup) : (Graph.add g t).Nodup := by
  unfold Graph.add
  split_ifs with hmem
  · exact h
  · rw [List.nodup_append]
    refine ⟨h, List.nodup_singleton t, ?_⟩
    intro a ha hb
    rw [List.mem_singleton] at hb
    exact hmem (hb ▸ ha)

theorem remove_nodup {g : Graph} (t : Triple) (h : g.Nodup) : (Graph.remove g t).Nodup :=
  h.filter _

theorem union_nodup (g1 g2 : Graph) (h : g1.Nodup) : (Graph.union g1 g2).Nodup := by
  unfold Graph.union
  induction g2 generalizing g1 with
  | nil => exact h
  | cons t rest ih => exact ih (Graph.add g1 t) (add_nodup t h)

theorem foldl_normStep_nodup :
    ∀ (rest : List Triple) (acc : Graph), acc.Nodup → (rest.foldl normStep acc).Nodup
  | [], acc, h => h
  | t :: rest, acc, h => by
    rw [List.foldl_cons]
    apply foldl_normStep_nodup rest
    rw [normStep_eq]
    split_ifs with hch
    · exact add_nodup _ (remove_nodup t h)
    · exact h

theorem normalize_graph_literals_nodup (g : Graph) (h : g.Nodup) :
    (normalize_graph_literals g).Nodup :=
  foldl_normStep_nodup g g h

theorem foldl_add_nodup :
    ∀ (ts : List Triple) (acc : Graph), acc.Nodup → (ts.foldl Graph.add acc).Nodup
  | [], _, h => h
  | t :: ts, acc, h => by
    rw [List.foldl_cons]
    exact foldl_add_nodup ts (Graph.add acc t) (add_nodup t h)

theorem parseNT_nodup (raw : String) : (parseNT raw).Nodup :=
  foldl_add_nodup _ [] List.nodup_nil

theorem add_mem_eq {g : Graph} {t : Triple} (h : t ∈ g) : Graph.add g t = g := by
  unfold Graph.add
  exact if_pos h

theorem sampleGo_length {α : Type} [DecidableEq α] (rand : Nat → Nat) :
    ∀ (k i : Nat) (pop : List α), k ≤ pop.length → (sampleGo rand i k pop).length = k
  | 0, _, _, _ => rfl
  | k + 1, i, [], hk => by simp at hk
  | k + 1, i, y :: pop, hk => by
    rw [sampleGo, List.length_cons]
    have hx : (y :: pop).get ⟨rand i % (y :: pop).length, Nat.mod_lt _ (Nat.succ_pos _)⟩
        ∈ y :: pop := List.get_mem _ _ _
    rw [sampleGo_length rand k (i + 1) _ ?_]
    rw [List.length_erase_of_mem hx, List.length_cons]
    exact Nat.le_of_succ_le_succ hk

theorem sampleGo_subset {α : Type} [DecidableEq α] (rand : Nat → Nat) :
    ∀ (k i : Nat) (pop : List α) (z : α), z ∈ sampleGo rand i k pop → z ∈ pop
  | 0, _, _, _, hz => absurd hz (List.not_mem_nil _)
  | k + 1, i, [], _, hz => absurd hz (List.not_mem_nil _)
  | k + 1, i, y :: pop, z, hz => by
    rw [sampleGo] at hz
    rcases List.mem_cons.mp hz with hz | hz
    · exact hz ▸ List.get_mem _ _ _
    · exact List.erase_subset _ _ (sampleGo_subset rand k (i + 1) _ z hz)

theorem sampleGo_nodup {α : Type} [DecidableEq α] (rand : Nat → Nat) :
    ∀ (k i : Nat) (pop : List α), pop.Nodup → (sampleGo rand i k pop).Nodup
  | 0, _, _, _ => List.nodup_nil
  | k + 1, i, [], _ => List.nodup_nil
  | k + 1, i, y :: pop, hnd => by
    rw [sampleGo, List.nodup_cons]
    refine ⟨fun hmem => ?_, sampleGo_nodup rand k (i + 1) _ (hnd.erase _)⟩
    exact hnd.not_mem_erase (sampleGo_subset rand k (i + 1) _ _ hmem)

theorem randomSample_spec {α : Type} [DecidableEq α] (rand : Nat → Nat) (pop : List α)
    (k : Nat) (hk : k ≤ pop.length) (hnd : pop.Nodup) :
    (randomSample rand pop k).length = k ∧ (randomSample rand pop k).Nodup ∧
      ∀ z ∈ randomSample rand pop k, z ∈ pop :=
  ⟨sampleGo_length rand k 0 pop hk, sampleGo_nodup rand k 0 pop hnd,
    fun z hz => sampleGo_subset rand k 0 pop z hz⟩

theorem itemsToCheck_of_small {shared : List String} {size : Nat} (us : Bool)
    (rand : Nat → Nat) (h : shared.length ≤ size) :
    itemsToCheck shared us size rand = List.insertionSort strLe shared := by
  unfold itemsToCheck
  have hlen : (List.insertionSort strLe shared).length = shared.length :=
    List.length_insertionSort _ _
  simp [hlen, Nat.not_lt.mpr h]

theorem itemsToCheck_of_large {shared : List String} {size : Nat} (rand : Nat → Nat)
    (hgt : size < shared.length) (hnd : shared.Nodup) :
    (itemsToCheck shared true size rand).length = size ∧
      (itemsToCheck shared true size rand).Nodup ∧
      ∀ x ∈ itemsToCheck shared true size rand, x ∈ shared := by
  unfold itemsToCheck
  have hlen : (List.insertionSort strLe shared).length = shared.length :=
    List.length_insertionSort _ _
  have hsnd : (List.insertionSort strLe shared).Nodup :=
    (List.perm_insertionSort strLe shared).symm.nodup hnd
  have hcond : (true && decide ((List.insertionSort strLe shared).length > size)) = true := by
    simp [hlen, hgt]
  rw [if_pos hcond]
  obtain ⟨h1, h2, h3⟩ := randomSample_spec rand (List.insertionSort strLe shared) size
    (hlen ▸ le_of_lt hgt) hsnd
  exact ⟨h1, h2, fun x hx =>
    (List.perm_insertionSort strLe shared).subset (h3 x hx)⟩

theorem itemsToCheck_subset (shared : List String) (us : Bool) (size : Nat)
    (rand : Nat → Nat) : ∀ x ∈ itemsToCheck shared us size rand, x ∈ shared := by
  intro x hx
  unfold itemsToCheck at hx
  split at hx
  · exact (List.perm_insertionSort strLe shared).subset
      (sampleGo_subset rand size 0 _ x hx)
  · exact (List.perm_insertionSort strLe shared).subset hx

theorem itemsToCheck_nil (us : Bool) (size : Nat) (rand : Nat → Nat) :
    itemsToCheck [] us size rand = [] := by
  unfold itemsToCheck
  simp

theorem deepCompareLoop_ok {fetchSt fetchGdb : String → Except String Graph} :
    ∀ (items : List String) (acc : List ComparisonResult) (aSt aGdb : Graph)
      {rs : List ComparisonResult} {bSt bGdb : Graph},
      deepCompareLoop fetchSt fetchGdb items acc aSt aGdb = .ok (rs, bSt, bGdb) →
      ∃ rs', rs = acc ++ rs' ∧ List.Forall₂ (rowSpec fetchSt fetchGdb) items rs'
  | [], acc, aSt, aGdb, rs, bSt, bGdb => by
    intro h
    rw [deepCompareLoop] at h
    injection h with h
    refine ⟨[], ?_, List.Forall₂.nil⟩
    have hacc : acc = rs := congrArg Prod.fst h
    rw [← hacc, List.append_nil]
  | iri :: rest, acc, aSt, aGdb, rs, bSt, bGdb => by
    intro h
    rw [deepCompareLoop] at h
    cases hst : fetchSt iri with
    | error e => rw [hst] at h; cases h
    | ok g1 =>
      rw [hst] at h
      cases hgdb : fetchGdb iri with
      | error e => rw [hgdb] at h; cases h
      | ok g2 =>
        rw [hgdb] at h
        rcases deepCompareLoop_ok rest _ _ _ h with ⟨rs', hrs, hfa⟩
        refine ⟨⟨iri, graphsEqual g1 g2, g1.length⟩ :: rs', ?_, ?_⟩
        · rw [hrs]
          simp
        · exact List.Forall₂.cons ⟨g1, g2, hst, hgdb, rfl⟩ hfa

theorem deepCompareLoop_error {fetchSt fetchGdb : String → Except String Graph} :
    ∀ (items : List String) (acc : List ComparisonResult) (aSt aGdb : Graph)
      (iri : String), iri ∈ items → (∀ g, fetchSt iri ≠ .ok g) →
      ∃ e, deepCompareLoop fetchSt fetchGdb items acc aSt aGdb = .error e
  | [], _, _, _, _, hmem, _ => absurd hmem (List.not_mem_nil _)
  | x :: rest, acc, aSt, aGdb, iri, hmem, hfail => by
    rw [deepCompareLoop]
    cases hst : fetchSt x with
    | error e => exact ⟨e, rfl⟩
    | ok g1 =>
      cases hgdb : fetchGdb x with
      | error e => exact ⟨e, rfl⟩
      | ok g2 =>
        rcases List.mem_cons.mp hmem with hix | hix
        · exact absurd (hix ▸ hst) (hfail g1)
        · exact deepCompareLoop_error rest _ _ _ iri hix hfail

theorem forall₂_mem_right {R : String → ComparisonResult → Prop} :
    ∀ {items : List String} {rs : List ComparisonResult},
      List.Forall₂ R items rs → ∀ r ∈ rs, ∃ iri ∈ items, R iri r := by
  intro items rs h
  induction h with
  | nil => intro r hr; cases hr
  | cons hR hfa ih =>
    intro r hr
    rcases List.mem_cons.mp hr with hr | hr
    · exact ⟨_, List.mem_cons_self _ _, hr ▸ hR⟩
    · rcases ih r hr with ⟨iri, hi, hri⟩
      exact ⟨iri, List.mem_cons_of_mem _ hi, hri⟩

theorem run_validation_ok_ok (stItems gdbItems : List String)
    (fetchSt fetchGdb : String → Except String Graph) (us : Bool) (size : Nat)
    (rand : Nat → Nat) :
    run_validation (.ok stItems) (.ok gdbItems) fetchSt fetchGdb us size rand =
      if (populationShared stItems gdbItems).isEmpty then .aborted
      else
        match deepCompareLoop fetchSt fetchGdb
            (itemsToCheck (populationShared stItems gdbItems) us size rand)
            [] [] [] with
        | .error e => .failed e
        | .ok (results, aSt, aGdb) => .completed results aSt aGdb := rfl

theorem run_validation_completed_loop {dSt dGdb : Except String (List String)}
    {fetchSt fetchGdb : String → Except String Graph} {us : Bool} {size : Nat}
    {rand : Nat → Nat} {stItems gdbItems : List String}
    {rs : List ComparisonResult} {aSt aGdb : Graph}
    (h1 : dSt = .ok stItems) (h2 : dGdb = .ok gdbItems)
    (hrun : run_validation dSt dGdb fetchSt fetchGdb us size rand
      = .completed rs aSt aGdb) :
    deepCompareLoop fetchSt fetchGdb
      (itemsToCheck (populationShared stItems gdbItems) us size rand) [] [] []
      = .ok (rs, aSt, aGdb) := by
  subst h1
  subst h2
  rw [run_validation_ok_ok] at hrun
  split at hrun
  · cases hrun
  · split at hrun
    · cases hrun
    · rename_i heq
      injection hrun with hrs hSt hGdb
      rw [← hrs, ← hSt, ← hGdb]
      exact heq

theorem run_validation_aborted_of_empty {dSt dGdb : Except String (List String)}
    {fetchSt fetchGdb : String → Except String Graph} {us : Bool} {size : Nat}
    {rand : Nat → Nat} {stItems gdbItems : List String}
    (h1 : dSt = .ok stItems) (h2 : dGdb = .ok gdbItems)
    (hempty : populationShared stItems gdbItems = []) :
    run_validation dSt dGdb fetchSt fetchGdb us size rand = .aborted := by
  subst h1
  subst h2
  rw [run_validation_ok_ok, hempty]
  rfl

theorem run_validation_failed_of_fetch_error {dSt dGdb : Except String (List String)}
    {fetchSt fetchGdb : String → Except String Graph} {us : Bool} {size : Nat}
    {rand : Nat → Nat} {stItems gdbItems : List String} {iri : String}
    (h1 : dSt = .ok stItems) (h2 : dGdb = .ok gdbItems)
    (hmem : iri ∈ itemsToCheck (populationShared stItems gdbItems) us size rand)
    (hfail : ∀ g, fetchSt iri ≠ .ok g) :
    ∃ e, run_validation dSt dGdb fetchSt fetchGdb us size rand = .failed e := by
  subst h1
  subst h2
  rw [run_validation_ok_ok]
  have hne : (populationShared stItems gdbItems).isEmpty = false := by
    cases hsh : populationShared stItems gdbItems with
    | nil =>
      rw [hsh, itemsToCheck_nil] at hmem
      cases hmem
    | cons a l => rfl
  rw [hne]
  obtain ⟨e, he⟩ := deepCompareLoop_error
    (itemsToCheck (populationShared stItems gdbItems) us size rand) [] [] [] iri hmem hfail
  rw [he]
  exact ⟨e, rfl⟩

/-- C1: for every graph and every relabeling of its blank nodes that is
injective on the graph's blank labels (in particular any bijective
relabeling), the comparison `to_isomorphic(g1) == to_isomorphic(g2)` run by
every comparison path — and recorded as `match` in `run_validation` — answers
true, because the canonical form itself is invariant under the relabeling. -/
theorem c1_blank_relabel_match (g : Graph) (f : String → String)
    (hinj : ∀ a ∈ blankLabels g, ∀ b ∈ blankLabels g, f a = f b → a = b) :
    graphsEqual g (renameGraph f g) = true ∧
      to_isomorphic (renameGraph f g) = to_isomorphic g := by
  refine ⟨?_, to_isomorphic_rename hinj⟩
  unfold graphsEqual
  rw [to_isomorphic_rename hinj]
  exact decide_eq_true rfl

/-- Witness for C1: an entity graph with a two-deep anonymous structure,
relabeled by swapping its two blank labels, still compares equal. -/
theorem c1_blank_relabel_match_witness :
    graphsEqual exGraph (renameGraph exSwap exGraph) = true :=
  (c1_blank_relabel_match exGraph exSwap (by decide)).1

/-- C2: `graph_diff` is a partition over canonical forms: `in_both` is the
intersection, `only_in_g1`/`only_in_g2` are the two differences, every
canonical triple of g1 lands in exactly one of `in_both`/`only_in_g1`
(symmetrically for g2), and the two `only` parts are disjoint. -/
theorem c2_graph_diff_partition (g1 g2 : Graph) (t : Triple) :
    (t ∈ (graph_diff g1 g2).1 ↔ t ∈ to_isomorphic g1 ∧ t ∈ to_isomorphic g2) ∧
    (t ∈ (graph_diff g1 g2).2.1 ↔ t ∈ to_isomorphic g1 ∧ t ∉ to_isomorphic g2) ∧
    (t ∈ (graph_diff g1 g2).2.2 ↔ t ∈ to_isomorphic g2 ∧ t ∉ to_isomorphic g1) ∧
    (t ∈ to_isomorphic g1 ↔ t ∈ (graph_diff g1 g2).1 ∨ t ∈ (graph_diff g1 g2).2.1) ∧
    (t ∈ to_isomorphic g2 ↔ t ∈ (graph_diff g1 g2).1 ∨ t ∈ (graph_diff g1 g2).2.2) ∧
    ¬(t ∈ (graph_diff g1 g2).2.1 ∧ t ∈ (graph_diff g1 g2).2.2) ∧
    ¬(t ∈ (graph_diff g1 g2).1 ∧ t ∈ (graph_diff g1 g2).2.1) := by
  unfold graph_diff
  simp only [List.mem_filter, decide_eq_true_eq]
  tauto

/-- Witness for C2 at concrete graphs: the triple unique to the first graph
lands in the `only_in_g1` part. -/
theorem c2_graph_diff_partition_witness :
    tripleB1 ∈ (graph_diff [tripleB1] exGraph).2.1 ↔
      tripleB1 ∈ to_isomorphic [tripleB1] ∧ tripleB1 ∉ to_isomorphic exGraph :=
  (c2_graph_diff_partition [tripleB1] exGraph tripleB1).2.1

/-- C3: canonicalization is idempotent — canonicalizing a canonical form
yields the identical canonical form. -/
theorem c3_canonicalization_idempotent (g : Graph) :
    to_isomorphic (to_isomorphic g) = to_isomorphic g :=
  to_isomorphic_idem g

/-- Witness for C3 at a concrete graph with two blank nodes. -/
theorem c3_canonicalization_idempotent_witness :
    to_isomorphic (to_isomorphic exGraph) = to_isomorphic exGraph :=
  c3_canonicalization_idempotent exGraph

/-- C4 counterexample: with two shared entities where the second entity's
Stardog fetch raises a transport error, `run_validation` does not record a
failed ComparisonResult and continue — the single `try/except` wrapping the
whole function catches the error, the run ends failed, and no report row
(not even for the first, successfully compared entity) survives. -/
theorem c4_entity_error_counterexample :
    run_validation (.ok ["http://ex/a", "http://ex/b"])
      (.ok ["http://ex/a", "http://ex/b"]) fetchBoom fetchOne false 100
      (fun _ => 0) = .failed "timeout" := by decide

/-- C4 (amended): an error raised while fetching one entity during the
per-entity loop is caught by the handler wrapping the whole run: the entire
run fails and no per-entity report — not even for entities already processed —
is produced; discovery errors abort the run the same way. -/
theorem c4_entity_error_fails_whole_run
    (dSt dGdb : Except String (List String))
    (fetchSt fetchGdb : String → Except String Graph) (us : Bool) (size : Nat)
    (rand : Nat → Nat) (stItems gdbItems : List String) (iri : String)
    (h1 : dSt = .ok stItems) (h2 : dGdb = .ok gdbItems)
    (hmem : iri ∈ itemsToCheck (populationShared stItems gdbItems) us size rand)
    (hfail : ∀ g, fetchSt iri ≠ .ok g) :
    ∃ e, run_validation dSt dGdb fetchSt fetchGdb us size rand = .failed e :=
  run_validation_failed_of_fetch_error h1 h2 hmem hfail

/-- Witness for C4 (amended) at the concrete counterexample inputs. -/
theorem c4_entity_error_fails_whole_run_witness :
    ∃ e, run_validation (.ok ["http://ex/a", "http://ex/b"])
      (.ok ["http://ex/a", "http://ex/b"]) fetchBoom fetchOne false 100
      (fun _ => 0) = .failed e :=
  c4_entity_error_fails_whole_run (.ok ["http://ex/a", "http://ex/b"])
    (.ok ["http://ex/a", "http://ex/b"]) fetchBoom fetchOne false 100
    (fun _ => 0) ["http://ex/a", "http://ex/b"] ["http://ex/a", "http://ex/b"]
    "http://ex/b" rfl rfl (by decide)
    (by
      intro g h
      rw [show fetchBoom "http://ex/b" = Except.error "timeout" from rfl] at h
      cases h)

/-- C5 counterexample: in compare_app.py's `fetch_clean_graph` (and the
fetchers of `src/src/app.py`) the NFC normalization is applied to the whole
fetched serialization before parsing, so an IRI containing the decomposed
sequence U+0065 U+0301 is rewritten — the parsed graph's IRIs differ from the
IRIs of the same document parsed as fetched. -/
theorem c5_iri_rewritten_counterexample :
    iriStrings (fetch_clean_graph_text c5Raw) ≠ iriStrings (parseNT c5Raw) := by
  decide

/-- C5 (amended): validator.py's `normalize_graph_literals` replaces only the
literal's lexical form by its NFC equivalent, passes language tag and datatype
through unchanged, and never touches IRIs or blank nodes — every triple of the
normalized graph is the `normTriple` image of a fetched triple and vice versa.
(The whole-text NFC paths of compare_app.py/app.py, by contrast, rewrite IRIs,
as the counterexample shows.) -/
theorem c5_literal_normalization (g : Graph) (x : Triple) (s p : Node)
    (lex : String) (lang dt : Option String) (iriStr blankStr : String) :
    (x ∈ normalize_graph_literals g ↔ ∃ u ∈ g, x = normTriple u) ∧
    normTriple ⟨s, p, .lit lex lang dt⟩ = ⟨s, p, .lit (nfc lex) lang dt⟩ ∧
    normTriple ⟨s, p, .iri iriStr⟩ = ⟨s, p, .iri iriStr⟩ ∧
    normTriple ⟨s, p, .blank blankStr⟩ = ⟨s, p, .blank blankStr⟩ :=
  ⟨mem_normalize_graph_literals g x, rfl, rfl, rfl⟩

/-- Witness for C5 at a concrete graph: the normalized graph contains exactly
the normalized triples. -/
theorem c5_literal_normalization_witness :
    (tripleB1 ∈ normalize_graph_literals [tripleB1, tripleB2] ↔
      ∃ u ∈ [tripleB1, tripleB2], tripleB1 = normTriple u) ∧
    normTriple ⟨.iri "s", .iri "p", .lit "v" (some "de") none⟩
      = ⟨.iri "s", .iri "p", .lit (nfc "v") (some "de") none⟩ ∧
    normTriple ⟨.iri "s", .iri "p", .iri "http://ex/o"⟩
      = ⟨.iri "s", .iri "p", .iri "http://ex/o"⟩ ∧
    normTriple ⟨.iri "s", .iri "p", .blank "b"⟩ = ⟨.iri "s", .iri "p", .blank "b"⟩ :=
  c5_literal_normalization [tripleB1, tripleB2] tripleB1 (.iri "s") (.iri "p")
    "v" (some "de") none "http://ex/o" "b"

/-- C6: the sampling step of `run_validation`: when the shared population is
no larger than the limit it is checked whole (sorted); when it is larger,
exactly `sampleSize` distinct members of the population are selected (without
replacement, from the abstracted random source). -/
theorem c6_sampler_bounds (pop : List String) (size : Nat) (rand : Nat → Nat)
    (hnd : pop.Nodup) :
    (pop.length ≤ size →
      itemsToCheck pop true size rand = List.insertionSort strLe pop) ∧
    (size < pop.length →
      (itemsToCheck pop true size rand).length = size ∧
      (itemsToCheck pop true size rand).Nodup ∧
      ∀ x ∈ itemsToCheck pop true size rand, x ∈ pop) :=
  ⟨fun h => itemsToCheck_of_small true rand h,
   fun h => itemsToCheck_of_large rand h hnd⟩

/-- Witness for C6: from a shared population of three IRIs with limit 2 the
sampler returns exactly 2 distinct members of the population. -/
theorem c6_sampler_bounds_witness :
    (itemsToCheck ["http://ex/a", "http://ex/b", "http://ex/c"] true 2
      (fun _ => 0)).length = 2 ∧
    (itemsToCheck ["http://ex/a", "http://ex/b", "http://ex/c"] true 2
      (fun _ => 0)).Nodup ∧
    ∀ x ∈ itemsToCheck ["http://ex/a", "http://ex/b", "http://ex/c"] true 2
      (fun _ => 0), x ∈ ["http://ex/a", "http://ex/b", "http://ex/c"] :=
  (c6_sampler_bounds ["http://ex/a", "http://ex/b", "http://ex/c"] 2
    (fun _ => 0) (by decide)).2 (by decide)

/-- C7: the population comparison is exact set arithmetic — shared is the
intersection, the two `only` sets are the set differences — and the deep
triple-level comparison runs only on entities of the shared set: every
recorded ComparisonResult's IRI is a shared IRI. -/
theorem c7_population_sets_and_deep_scope
    (stItems gdbItems : List String) (a : String)
    (dSt dGdb : Except String (List String))
    (fetchSt fetchGdb : String → Except String Graph) (us : Bool) (size : Nat)
    (rand : Nat → Nat) (rs : List ComparisonResult) (aSt aGdb : Graph)
    (h1 : dSt = .ok stItems) (h2 : dGdb = .ok gdbItems)
    (hrun : run_validation dSt dGdb fetchSt fetchGdb us size rand
      = .completed rs aSt aGdb) :
    (a ∈ populationShared stItems gdbItems ↔ a ∈ stItems ∧ a ∈ gdbItems) ∧
    (a ∈ populationOnlySt stItems gdbItems ↔ a ∈ stItems ∧ a ∉ gdbItems) ∧
    (a ∈ populationOnlyGdb stItems gdbItems ↔ a ∈ gdbItems ∧ a ∉ stItems) ∧
    ∀ r ∈ rs, r.iri ∈ populationShared stItems gdbItems := by
  refine ⟨by simp [populationShared, List.mem_filter],
    by simp [populationOnlySt, List.mem_filter],
    by simp [populationOnlyGdb, List.mem_filter], ?_⟩
  have hloop := run_validation_completed_loop h1 h2 hrun
  rcases deepCompareLoop_ok _ _ _ _ hloop with ⟨rs', hrs, hfa⟩
  intro r hr
  rw [hrs, List.nil_append] at hr
  rcases forall₂_mem_right hfa r hr with ⟨iri, hi, hspec⟩
  rcases hspec with ⟨g1, g2, _, _, rfl⟩
  exact itemsToCheck_subset _ _ _ _ iri hi

/-- Witness for C7: store A with entities a and b, store B with b and c; the
shared entity is b, the only recorded deep comparison is for b. -/
theorem c7_population_sets_and_deep_scope_witness :
    ("http://ex/b" ∈ populationShared ["http://ex/a", "http://ex/b"]
        ["http://ex/b", "http://ex/c"] ↔
      "http://ex/b" ∈ ["http://ex/a", "http://ex/b"] ∧
      "http://ex/b" ∈ ["http://ex/b", "http://ex/c"]) ∧
    ("http://ex/b" ∈ populationOnlySt ["http://ex/a", "http://ex/b"]
        ["http://ex/b", "http://ex/c"] ↔
      "http://ex/b" ∈ ["http://ex/a", "http://ex/b"] ∧
      "http://ex/b" ∉ ["http://ex/b", "http://ex/c"]) ∧
    ("http://ex/b" ∈ populationOnlyGdb ["http://ex/a", "http://ex/b"]
        ["http://ex/b", "http://ex/c"] ↔
      "http://ex/b" ∈ ["http://ex/b", "http://ex/c"] ∧
      "http://ex/b" ∉ ["http://ex/a", "http://ex/b"]) ∧
    ∀ r ∈ [(⟨"http://ex/b", true, 1⟩ : ComparisonResult)],
      r.iri ∈ populationShared ["http://ex/a", "http://ex/b"]
        ["http://ex/b", "http://ex/c"] :=
  c7_population_sets_and_deep_scope ["http://ex/a", "http://ex/b"]
    ["http://ex/b", "http://ex/c"] "http://ex/b"
    (.ok ["http://ex/a", "http://ex/b"]) (.ok ["http://ex/b", "http://ex/c"])
    fetchOne fetchOne false 100 (fun _ => 0)
    [⟨"http://ex/b", true, 1⟩] [tripleB1] [tripleB1] rfl rfl (by decide)

/-- C8: a run whose shared-entity set is empty terminates in the distinct
`aborted` outcome — a constructor different from both the completed (matched
or mismatched) report and the failed run — and carries no per-entity report. -/
theorem c8_empty_shared_aborts
    (dSt dGdb : Except String (List String))
    (fetchSt fetchGdb : String → Except String Graph) (us : Bool) (size : Nat)
    (rand : Nat → Nat) (stItems gdbItems : List String)
    (h1 : dSt = .ok stItems) (h2 : dGdb = .ok gdbItems)
    (hempty : populationShared stItems gdbItems = []) :
    run_validation dSt dGdb fetchSt fetchGdb us size rand = .aborted ∧
    (∀ rs aSt aGdb, (RunOutcome.aborted : RunOutcome) ≠ .completed rs aSt aGdb) ∧
    (∀ e, (RunOutcome.aborted : RunOutcome) ≠ .failed e) :=
  ⟨run_validation_aborted_of_empty h1 h2 hempty,
   fun _ _ _ h => RunOutcome.noConfusion h,
   fun _ h => RunOutcome.noConfusion h⟩

/-- Witness for C8: two disjoint populations make the run abort. -/
theorem c8_empty_shared_aborts_witness :
    run_validation (.ok ["http://ex/a"]) (.ok ["http://ex/c"]) fetchOne fetchOne
      false 100 (fun _ => 0) = .aborted ∧
    (∀ rs aSt aGdb, (RunOutcome.aborted : RunOutcome) ≠ .completed rs aSt aGdb) ∧
    (∀ e, (RunOutcome.aborted : RunOutcome) ≠ .failed e) :=
  c8_empty_shared_aborts (.ok ["http://ex/a"]) (.ok ["http://ex/c"]) fetchOne
    fetchOne false 100 (fun _ => 0) ["http://ex/a"] ["http://ex/c"] rfl rfl
    (by decide)

/-- C9: graphs keep set semantics everywhere the program builds or combines
them — adding an already-present triple leaves the graph unchanged, and
adding, normalizing literals (also when a normalized literal collides with an
existing triple), unioning per-entity graphs, and parsing fetched data all
preserve the no-duplicate-triple invariant. -/
theorem c9_graph_set_semantics (g g2 : Graph) (t t2 : Triple) (raw : String)
    (hnd : g.Nodup) (hmem : t ∈ g) :
    Graph.add g t = g ∧
    (Graph.add g t2).Nodup ∧
    (normalize_graph_literals g).Nodup ∧
    (Graph.union g g2).Nodup ∧
    (parseNT raw).Nodup :=
  ⟨add_mem_eq hmem, add_nodup t2 hnd, normalize_graph_literals_nodup g hnd,
   union_nodup g g2 hnd, parseNT_nodup raw⟩

/-- Witness for C9 at concrete inputs (the normalized literal of `tripleB1`
collides with the already-present `tripleB1` itself). -/
theorem c9_graph_set_semantics_witness :
    Graph.add [tripleB1, tripleB2] tripleB1 = [tripleB1, tripleB2] ∧
    (Graph.add [tripleB1, tripleB2] tripleB2).Nodup ∧
    (normalize_graph_literals [tripleB1, tripleB2]).Nodup ∧
    (Graph.union [tripleB1, tripleB2] exGraph).Nodup ∧
    (parseNT c5Raw).Nodup :=
  c9_graph_set_semantics [tripleB1, tripleB2] exGraph tripleB1 tripleB2 c5Raw
    (by decide) (by decide)

/-- C10: every recorded ComparisonResult's `Triples` count is the size of the
graph fetched from the first (Stardog) store — the GraphDB graph's size is
never recorded, even when the two graphs differ. -/
theorem c10_triple_count_stardog_only
    (dSt dGdb : Except String (List String))
    (fetchSt fetchGdb : String → Except String Graph) (us : Bool) (size : Nat)
    (rand : Nat → Nat) (stItems gdbItems : List String)
    (rs : List ComparisonResult) (aSt aGdb : Graph)
    (h1 : dSt = .ok stItems) (h2 : dGdb = .ok gdbItems)
    (hrun : run_validation dSt dGdb fetchSt fetchGdb us size rand
      = .completed rs aSt aGdb) :
    List.Forall₂
      (fun iri r => ∃ g1 g2, fetchSt iri = .ok g1 ∧ fetchGdb iri = .ok g2 ∧
        r.iri = iri ∧ r.matched = graphsEqual g1 g2 ∧ r.triples = g1.length)
      (itemsToCheck (populationShared stItems gdbItems) us size rand) rs := by
  have hloop := run_validation_completed_loop h1 h2 hrun
  rcases deepCompareLoop_ok _ _ _ _ hloop with ⟨rs', hrs, hfa⟩
  rw [hrs, List.nil_append]
  refine List.Forall₂.imp ?_ hfa
  rintro iri r ⟨g1, g2, hst, hgdb, rfl⟩
  exact ⟨g1, g2, hst, hgdb, rfl, rfl, rfl⟩

/-- Witness for C10: the stores disagree — Stardog serves one triple, GraphDB
two — and the mismatching entity's recorded count is 1, the Stardog size. -/
theorem c10_triple_count_stardog_only_witness :
    List.Forall₂
      (fun iri r => ∃ g1 g2, fetchOne iri = .ok g1 ∧ fetchTwo iri = .ok g2 ∧
        ComparisonResult.iri r = iri ∧
        ComparisonResult.matched r = graphsEqual g1 g2 ∧
        ComparisonResult.triples r = g1.length)
      (itemsToCheck (populationShared ["http://ex/b"] ["http://ex/b"]) false 100
        (fun _ => 0))
      [⟨"http://ex/b", false, 1⟩] :=
  c10_triple_count_stardog_only (.ok ["http://ex/b"]) (.ok ["http://ex/b"])
    fetchOne fetchTwo false 100 (fun _ => 0) ["http://ex/b"] ["http://ex/b"]
    [⟨"http://ex/b", false, 1⟩] [tripleB1] [tripleB1, tripleB2] rfl rfl
    (by decide)
